import Mathlib

/-!
# Verification of the wordle-solver guess engine

A shallow embedding of the core engine of the `wordle-solver` repository
(`src/wordle.rs` and `src/solver/mod.rs`), together with theorems settling
the specification claims about it.

Modelling conventions:
* `u8` / `usize` values become `Nat` (all arithmetic stays far below any
  overflow boundary: status codes are at most 242).
* `f32` prior weights become `ℚ` (the prior table only ever gets added, so
  the rational model is exact); entropy, which takes a logarithm, lands in `ℝ`.
* Rust panics (`expect`, the unreachable `panic!` in `decode_status`) become
  `Option` results, `none` marking the panic.
* `Vec`/arrays become `List`s; `HashSet` values become `Finset ℕ`.
-/

set_option maxHeartbeats 1000000
set_option maxRecDepth 100000

/-- Model of `LetterStatus` from `wordle.rs`: `Absent = 0`, `Misplaced = 1`, `Correct = 2`. -/
inductive LetterStatus where
  | Absent
  | Misplaced
  | Correct
deriving DecidableEq, Repr, Fintype

/-- The load-bearing ordinal of a `LetterStatus` (its `enum` discriminant in Rust). -/
def LetterStatus.ord : LetterStatus → Nat
  | .Absent => 0
  | .Misplaced => 1
  | .Correct => 2

/-- Model of `Word` from `wordle.rs`: five optional characters (`[Option<char>; 5]`).
The list is length 5 by convention; positions are read with `getD _ none`. -/
structure Word where
  chars : List (Option Char)
deriving DecidableEq, Repr

/-- Model of `Word::new()`: a word with all five slots empty. -/
def Word.new : Word :=
  ⟨List.replicate 5 none⟩

/-- Model of `create_word_from_string` from `wordle.rs`: starting from `Word::new()`,
set slot `i` to the `i`-th character of the string. -/
def create_word_from_string (s : String) : Word :=
  ⟨s.toList.enum.foldl (fun cs p => cs.set p.1 (some p.2)) (List.replicate 5 none)⟩

/-- Model of `Guess` from `wordle.rs`: a played word plus the observed status code. -/
structure Guess where
  word : Word
  status : Nat
deriving DecidableEq, Repr

/-- Model of `encode_status` from `wordle.rs`: base-3 encoding
`sum over i of 3 ^ i * ord (status i)`. -/
def encode_status (status : List LetterStatus) : Nat :=
  (status.enum.map (fun p => 3 ^ p.1 * p.2.ord)).sum

/-- One digit of `decode_status`; the wildcard branch models the
`panic!("Invalid encoding")` arm of the Rust `match`. -/
def decodeDigit : Nat → Option LetterStatus
  | 0 => some .Absent
  | 1 => some .Misplaced
  | 2 => some .Correct
  | _ => none

/-- Model of `decode_status` from `wordle.rs`: digit `i` is `encoded / 3 ^ i % 3`;
`none` models the (unreachable) panic on an invalid digit. -/
def decode_status (encoded : Nat) : Option (List LetterStatus) :=
  (List.range 5).mapM (fun i => decodeDigit (encoded / 3 ^ i % 3))

/-- Model of `Word::compare` from `wordle.rs` (`self` is the secret, `guess` the guess).
First pass marks `Correct` where the optional characters agree and collects
the other positions into `remaining_positions`; the second pass walks
`remaining_positions` in order and, for each, searches `remaining_positions`
for a (not yet consumed) secret slot holding the guessed letter, marking
`Misplaced` and consuming that slot when found. -/
def Word.compare (self guess : Word) : List LetterStatus :=
  let firstPass : List LetterStatus :=
    (List.range 5).map (fun i =>
      if guess.chars.getD i none = self.chars.getD i none then LetterStatus.Correct
      else LetterStatus.Absent)
  let remaining_positions : List Nat :=
    (List.range 5).filter (fun i =>
      decide (guess.chars.getD i none ≠ self.chars.getD i none))
  let step : List LetterStatus × List (Option Char) → Nat → List LetterStatus × List (Option Char) :=
    fun st pos =>
      let guess_letter := guess.chars.getD pos none
      match remaining_positions.find? (fun wp => decide (guess_letter = st.2.getD wp none)) with
      | some wp => (st.1.set pos LetterStatus.Misplaced, st.2.set wp none)
      | none => st
  (remaining_positions.foldl step (firstPass, self.chars)).1

/-- Model of `create_mappings` from `solver/mod.rs`: `mappings[i][j]` is the encoded
status of guessing word `i` against secret word `j`
(`encode_status(&words[j].compare(&words[i]))`). -/
def create_mappings (words : List Word) : List (List Nat) :=
  (List.range words.length).map (fun i =>
    (List.range words.length).map (fun j =>
      encode_status (Word.compare (words.getD j Word.new) (words.getD i Word.new))))

/-- A word whose five slots are all set (the claims' "fully specified" words). -/
def fullySpecified (w : Word) : Prop :=
  w.chars.length = 5 ∧ ∀ c ∈ w.chars, c.isSome

instance (w : Word) : Decidable (fullySpecified w) := by
  unfold fullySpecified
  infer_instance

/-- Concrete vocabulary words used by the repository's own tests. -/
def w_slate : Word := create_word_from_string "slate"

def w_water : Word := create_word_from_string "water"

def w_goose : Word := create_word_from_string "goose"

def w_eater : Word := create_word_from_string "eater"

/-- Comparing any word against itself marks every position `Correct`. -/
theorem compare_self (w : Word) : Word.compare w w = List.replicate 5 LetterStatus.Correct := by
  unfold Word.compare
  simp

/-- C2: for every array of 5 letter statuses, decoding the encoding gives back
the array; the all-Correct pattern encodes to 242 and all-Absent to 0. -/
theorem decode_encode_roundtrip :
    (∀ a b c d e : LetterStatus,
      decode_status (encode_status [a, b, c, d, e]) = some [a, b, c, d, e]) ∧
    encode_status [.Correct, .Correct, .Correct, .Correct, .Correct] = 242 ∧
    encode_status [.Absent, .Absent, .Absent, .Absent, .Absent] = 0 := by
  refine ⟨by decide, rfl, rfl⟩

/-- C3: for a vocabulary of fully specified words, every diagonal entry of the
pattern matrix built by `create_mappings` equals 242 (the all-Correct code). -/
theorem create_mappings_diag (words : List Word) (i : Nat)
    (hw : ∀ w ∈ words, fullySpecified w) (hi : i < words.length) :
    ((create_mappings words).getD i []).getD i 0 = 242 := by
  have hrow : (create_mappings words).getD i [] =
      (List.range words.length).map
        (fun j => encode_status ((words.getD j Word.new).compare (words.getD i Word.new))) := by
    unfold create_mappings
    rw [List.getD_eq_getElem?_getD, List.getElem?_map, List.getElem?_range hi]
    rfl
  rw [hrow, List.getD_eq_getElem?_getD, List.getElem?_map, List.getElem?_range hi]
  simp only [Option.map_some', Option.getD_some, compare_self]
  rfl

/-- Witness for C3 at the concrete three-word vocabulary, index 1. -/
theorem create_mappings_diag_witness :
    ((∀ w ∈ [w_slate, w_water, w_goose], fullySpecified w) ∧
      1 < ([w_slate, w_water, w_goose] : List Word).length) ∧
    ((create_mappings [w_slate, w_water, w_goose]).getD 1 []).getD 1 0 = 242 :=
  ⟨⟨by decide, by decide⟩,
    create_mappings_diag [w_slate, w_water, w_goose] 1 (by decide) (by decide)⟩

/-- C4: the comparator's duplicate-letter semantics on the spec's concrete
inputs: secret "water" vs guess "slate" and secret "water" vs guess "eater". -/
theorem compare_concrete :
    Word.compare w_water w_slate =
      [.Absent, .Absent, .Misplaced, .Misplaced, .Misplaced] ∧
    Word.compare w_water w_eater =
      [.Absent, .Correct, .Correct, .Correct, .Correct] := by
  refine ⟨by decide, by decide⟩

/-- C10: `decode_status` is total on the `u8` range; the panic branch is
unreachable because every digit `e / 3 ^ i % 3` is below 3. -/
theorem decode_status_total (e : Nat) (he : e < 256) : (decode_status e).isSome :=
  (by decide : ∀ x < 256, (decode_status x).isSome) e he

/-- Witness for C10 at the largest `u8` value. -/
theorem decode_status_total_witness :
    255 < 256 ∧ (decode_status 255).isSome :=
  ⟨by decide, decode_status_total 255 (by decide)⟩

/-- The engine state (`Solver` in `solver/mod.rs`): vocabulary, the parallel
prior table (indexed like `words`), and the precomputed pattern matrix. -/
structure Solver where
  words : List Word
  priors : List ℚ
  mappings : List (List Nat)

/-- Model of `Solver::get_frequent_word_idx`: indices of the words with positive prior. -/
def Solver.get_frequent_word_idx (S : Solver) : List Nat :=
  (List.range S.priors.length).filter (fun i => decide (0 < S.priors.getD i 0))

/-- The per-guess step of `Solver::get_remaining_words_idx`: find the guessed
word's index (`none` models the `expect("Not a valid guess")` panic), then
collect the set of secret indices whose stored code in that word's matrix row
equals the observed status. -/
def Solver.matchSet (S : Solver) (g : Guess) : Option (Finset ℕ) :=
  match (List.range S.words.length).find?
      (fun i => decide (S.words.getD i Word.new = g.word)) with
  | none => none
  | some id =>
      some ((((S.mappings.getD id []).enum.filter
        (fun p => decide (p.2 = g.status))).map (fun p => p.1)).toFinset)

/-- The `guesses.iter().map(..)` collection step of
`Solver::get_remaining_words_idx`: one match set per guess, `none` as soon as
any guess's word lookup panics. -/
def Solver.collectMatchSets (S : Solver) : List Guess → Option (List (Finset ℕ))
  | [] => some []
  | g :: rest =>
      match S.matchSet g, S.collectMatchSets rest with
      | some s, some ss => some (s :: ss)
      | _, _ => none

/-- Model of `Solver::get_remaining_words_idx`: the full positive-prior set for an empty
history, otherwise the intersection of the per-guess match sets and the
positive-prior set. The `some []` arm is unreachable (the history is nonempty
there); it models the `reduce(..).unwrap()`. -/
def Solver.get_remaining_words_idx (S : Solver) (guesses : List Guess) : Option (Finset ℕ) :=
  let frequent_words := S.get_frequent_word_idx.toFinset
  if guesses.isEmpty then some frequent_words
  else
    match S.collectMatchSets guesses with
    | none => none
    | some [] => none
    | some (s :: rest) => some ((rest.foldl (fun a b => a ∩ b) s) ∩ frequent_words)

/-- Model of `Solver::get_mapping_distribution`: one row per allowed word; bucket `b` of
row `a` holds the mass accumulated by the `+=` loop over the columns of the
selected pattern matrix. NOTE (faithful to the source): the mass added for the
secret at position `id` of `remaining_words` is `priors[id]` — indexed by the
position inside `remaining_words`, not by the vocabulary index
`remaining_words[id]`. -/
def Solver.get_mapping_distribution (S : Solver) (allowed_words remaining_words : List Nat) :
    List (List ℚ) :=
  allowed_words.map (fun a =>
    (List.range 243).map (fun b =>
      (((List.range remaining_words.length).filter
          (fun id => decide ((S.mappings.getD a []).getD (remaining_words.getD id 0) 0 = b))).map
        (fun id => S.priors.getD id 0)).sum))

/-- The three-word vocabulary of the repository's `test_solver`, with the
distinct priors of `test_get_mapping_distribution_prior`. -/
def S3 : Solver where
  words := [w_slate, w_water, w_goose]
  priors := [1, 2, 3]
  mappings := create_mappings [w_slate, w_water, w_goose]

/-- Sanity check: the embedded pattern matrix of the three-word vocabulary
matches the matrix asserted by the repository's `test_mappings_2`. -/
theorem S3_mappings_eval :
    S3.mappings = [[242, 117, 163], [39, 242, 27], [189, 81, 242]] := by
  decide

/-- Summing a pointwise sum of two maps splits into two sums. -/
theorem sum_map_add_distrib (l : List ℕ) (f g : ℕ → ℚ) :
    (l.map (fun x => f x + g x)).sum = (l.map f).sum + (l.map g).sum := by
  induction l with
  | nil => simp
  | cons x t ih =>
      simp only [List.map_cons, List.sum_cons, ih]
      ring

/-- A spike located outside the index list sums to zero. -/
theorem sum_map_spike_zero (g : ℚ) (k : ℕ) (l : List ℕ) (hk : k ∉ l) :
    (l.map (fun b => if k = b then g else 0)).sum = 0 := by
  induction l with
  | nil => simp
  | cons x t ih =>
      simp only [List.map_cons, List.sum_cons]
      have hne : k ≠ x := by
        intro h
        exact hk (by simp [h])
      rw [if_neg hne, ih (fun h => hk (List.mem_cons_of_mem _ h))]
      ring

/-- Summing a single spike over `range n` yields the spike's value. -/
theorem sum_map_spike (g : ℚ) (k n : ℕ) (hk : k < n) :
    ((List.range n).map (fun b => if k = b then g else 0)).sum = g := by
  induction n with
  | zero => omega
  | succ m ih =>
      rw [List.range_succ, List.map_append, List.sum_append]
      by_cases h : k < m
      · rw [ih h]
        have : k ≠ m := by omega
        simp [this]
      · have hkm : k = m := by omega
        rw [sum_map_spike_zero g k (List.range m) (by simp [hkm])]
        simp [hkm]

/-- Fibering a list sum over the buckets `0 .. n-1` of a bucket function `f`
recovers the whole sum, provided every element lands in a bucket below `n`. -/
theorem sum_buckets (f : ℕ → ℕ) (g : ℕ → ℚ) (n : ℕ) (l : List ℕ)
    (hf : ∀ x ∈ l, f x < n) :
    ((List.range n).map (fun b =>
      ((l.filter (fun x => decide (f x = b))).map g).sum)).sum = (l.map g).sum := by
  induction l with
  | nil => simp
  | cons x t ih =>
      have hx : f x < n := hf x (List.mem_cons_self x t)
      have ht : ∀ y ∈ t, f y < n := fun y hy => hf y (List.mem_cons_of_mem x hy)
      have hstep : ∀ b : ℕ,
          (((x :: t).filter (fun y => decide (f y = b))).map g).sum
            = (if f x = b then g x else 0)
              + ((t.filter (fun y => decide (f y = b))).map g).sum := by
        intro b
        by_cases h : f x = b
        · rw [List.filter_cons_of_pos (by simpa using h), if_pos h]
          simp
        · rw [List.filter_cons_of_neg (by simpa using h), if_neg h]
          ring
      simp only [hstep]
      rw [sum_map_add_distrib, sum_map_spike (g x) (f x) n hx, ih ht]
      simp

/-- C1 (failing-input evaluation): with priors `[1, 2, 3]`, guess row `[0]` and
candidate set `C = [2]`, the histogram row built by `get_mapping_distribution`
sums to `1` — the prior at position 0 of the vocabulary — while the total
prior mass of `C` is `3` (the prior of word 2). The mass recorded per column
is `priors[id]` with `id` the position inside `remaining_words`, so the claimed
conservation of the prior mass of `C` fails. -/
theorem mapping_distribution_mass_bug :
    ((S3.get_mapping_distribution [0] [2]).getD 0 []).sum = 1 ∧
    (([2] : List ℕ).map (fun s => S3.priors.getD s 0)).sum = 3 := by
  constructor
  · have h1 : (S3.get_mapping_distribution [0] [2]).getD 0 [] =
        (List.range 243).map (fun b =>
          (((List.range ([2] : List ℕ).length).filter
              (fun id => decide
                ((S3.mappings.getD 0 []).getD (([2] : List ℕ).getD id 0) 0 = b))).map
            (fun id => S3.priors.getD id 0)).sum) := by
      simp [Solver.get_mapping_distribution]
    rw [h1, sum_buckets (fun id => (S3.mappings.getD 0 []).getD (([2] : List ℕ).getD id 0) 0)
      (fun id => S3.priors.getD id 0) 243 (List.range ([2] : List ℕ).length) (by decide)]
    have h2 : List.range 1 = [0] := rfl
    simp [S3, h2]
  · simp [S3]

/-- Appending a resolvable guess extends the collected match-set list. -/
theorem collectMatchSets_append (S : Solver) (l : List Guess) (g : Guess)
    (ss : List (Finset ℕ)) (s : Finset ℕ)
    (hl : S.collectMatchSets l = some ss) (hg : S.matchSet g = some s) :
    S.collectMatchSets (l ++ [g]) = some (ss ++ [s]) := by
  induction l generalizing ss with
  | nil =>
      simp only [Solver.collectMatchSets, Option.some_inj] at hl
      subst hl
      simp [Solver.collectMatchSets, hg]
  | cons a t ih =>
      cases ha : S.matchSet a with
      | none => simp [Solver.collectMatchSets, ha] at hl
      | some sa =>
          cases htl : S.collectMatchSets t with
          | none => simp [Solver.collectMatchSets, ha, htl] at hl
          | some st =>
              simp only [Solver.collectMatchSets, ha, htl, Option.some_inj] at hl
              subst hl
              simp [Solver.collectMatchSets, ha, ih st htl]

/-- Resolving `history ++ [g]` intersects the result for `history` with the
match set of `g` (when both the history resolution and `g`'s lookup succeed). -/
theorem get_remaining_append (S : Solver) (history : List Guess) (g : Guess)
    (r mg : Finset ℕ)
    (h1 : S.get_remaining_words_idx history = some r)
    (hg : S.matchSet g = some mg) :
    S.get_remaining_words_idx (history ++ [g]) = some (r ∩ mg) := by
  cases history with
  | nil =>
      simp only [Solver.get_remaining_words_idx, List.isEmpty_nil, if_true,
        Option.some_inj] at h1
      subst h1
      simp [Solver.get_remaining_words_idx, Solver.collectMatchSets, hg,
        Finset.inter_comm]
  | cons a t =>
      cases hm : S.collectMatchSets (a :: t) with
      | none => simp [Solver.get_remaining_words_idx, hm] at h1
      | some sets =>
          cases sets with
          | nil => simp [Solver.get_remaining_words_idx, hm] at h1
          | cons s rest =>
              simp only [Solver.get_remaining_words_idx, List.isEmpty_cons,
                Bool.false_eq_true, if_false, hm, Option.some_inj] at h1
              have hm2 : S.collectMatchSets ((a :: t) ++ [g]) = some ((s :: rest) ++ [mg]) :=
                collectMatchSets_append S (a :: t) g (s :: rest) mg hm hg
              simp only [List.cons_append] at hm2 ⊢
              simp only [Solver.get_remaining_words_idx, List.isEmpty_cons,
                Bool.false_eq_true, if_false, hm2, List.foldl_append, List.foldl_cons,
                List.foldl_nil, Option.some_inj]
              rw [← h1, Finset.inter_right_comm]

/-- If the appended guess's word lookup fails, the whole collection fails. -/
theorem collectMatchSets_append_none (S : Solver) (l : List Guess) (g : Guess)
    (hg : S.matchSet g = none) :
    S.collectMatchSets (l ++ [g]) = none := by
  induction l with
  | nil => simp [Solver.collectMatchSets, hg]
  | cons a t ih =>
      rw [List.cons_append, Solver.collectMatchSets, ih]
      cases S.matchSet a <;> rfl

/-- C5: the candidate set is monotonically non-increasing in the guess
history — whenever both `history` and `history ++ [g]` resolve, the new
candidate set has at most as many indices as the old one. -/
theorem remaining_words_monotone (S : Solver) (history : List Guess) (g : Guess)
    (r1 r2 : Finset ℕ)
    (h1 : S.get_remaining_words_idx history = some r1)
    (h2 : S.get_remaining_words_idx (history ++ [g]) = some r2) :
    r2.card ≤ r1.card := by
  cases hg : S.matchSet g with
  | none =>
      exfalso
      have hnone : S.get_remaining_words_idx (history ++ [g]) = none := by
        have hc := collectMatchSets_append_none S history g hg
        cases history with
        | nil =>
            simp only [List.nil_append] at hc
            simp [Solver.get_remaining_words_idx, hc]
        | cons a t =>
            simp only [List.cons_append] at hc
            simp [Solver.get_remaining_words_idx, hc]
      rw [hnone] at h2
      cases h2
  | some mg =>
      rw [get_remaining_append S history g r1 mg h1 hg, Option.some_inj] at h2
      subst h2
      exact Finset.card_le_card Finset.inter_subset_left

/-- Witness for C5: the empty history against the three-word solver resolves
to all three words; appending the guess `slate` with code 117 narrows it to
`water` alone. -/
theorem remaining_words_monotone_witness :
    (S3.get_remaining_words_idx [] = some {0, 1, 2} ∧
      S3.get_remaining_words_idx ([] ++ [⟨w_slate, 117⟩]) = some {1}) ∧
    ({1} : Finset ℕ).card ≤ ({0, 1, 2} : Finset ℕ).card :=
  ⟨⟨by decide, by decide⟩,
    remaining_words_monotone S3 [] ⟨w_slate, 117⟩ {0, 1, 2} {1} (by decide) (by decide)⟩

/-- Model of `entropy` from `solver/mod.rs`: with `sum` the total of the vector, each
zero bucket contributes 0 and each nonzero bucket `v` contributes
`-p * log2 p` for `p = v / sum`. The exact real-valued model of the `f32`
computation. -/
noncomputable def entropy (x : List ℚ) : ℝ :=
  (x.map (fun v =>
    if v = 0 then (0 : ℝ)
    else -((v / x.sum : ℚ) : ℝ) * Real.logb 2 ((v / x.sum : ℚ) : ℝ))).sum

/-- Model of `rank_guess` from `solver/mod.rs`: the composite sort score. -/
noncomputable def rank_guess (entropy : ℝ) (prior : ℚ) (penalty : ℚ) (possible : Bool) : ℝ :=
  if !possible then entropy
  else entropy + (prior : ℝ) / 20 * (penalty : ℝ)

/-- The sort key used inside `Solver::guess`: `rank_guess` applied to word
`i`'s entropy (over the full-vocabulary histogram rows), its prior, and its
membership in the candidate set. -/
noncomputable def Solver.rankOf (S : Solver) (remaining_words : List ℕ) (penalty : ℚ)
    (i : ℕ) : ℝ :=
  rank_guess
    (((S.get_mapping_distribution (List.range S.words.length) remaining_words).map
      entropy).getD i 0)
    (S.priors.getD i 0) penalty (remaining_words.contains i)

/-- Model of `Solver::guess`: a candidate set of size exactly one is returned directly;
otherwise all vocabulary indices are sorted by descending `rank_guess` (the
`sort_by(|a, b| rank(b).partial_cmp(rank(a)))` of the source, a stable
descending sort) and the first `n` are mapped back to words. -/
noncomputable def Solver.guess (S : Solver) (n : ℕ) (remaining_words : List ℕ)
    (penalty : ℚ) : List Word :=
  if remaining_words.length = 1 then
    remaining_words.map (fun i => S.words.getD i Word.new)
  else
    let indices := (List.range S.words.length).mergeSort
      (fun a b =>
        @decide (S.rankOf remaining_words penalty b ≤ S.rankOf remaining_words penalty a)
          (Classical.propDecidable _))
    (indices.take n).map (fun i => S.words.getD i Word.new)

/-- Model of `get_group_size` from `solver/mod.rs`: the number of positive buckets of
row `id` of the distribution matrix. -/
def get_group_size (id : ℕ) (distributions : List (List ℚ)) : ℕ :=
  ((distributions.getD id []).filter (fun x => decide (0 < x))).length

/-- Model of `Solver::get_n_solutions_after_guess`: the size of the intersection of the
remaining words with the indices whose stored code matches the status. -/
def Solver.get_n_solutions_after_guess (S : Solver) (word_id : ℕ) (remaining_words : List ℕ)
    (status : List LetterStatus) : ℕ :=
  let possible_word_ids := ((S.mappings.getD word_id []).enum.filter
    (fun p => decide (p.2 = encode_status status))).map (fun p => p.1)
  (remaining_words.toFinset ∩ possible_word_ids.toFinset).card

/-- Model of `Solver::get_max_group_size`: the largest multiplicity among the status
codes of the selected row (0 for an empty selection). -/
def Solver.get_max_group_size (S : Solver) (word_id : ℕ) (remaining_words : List ℕ) : ℕ :=
  let pattern_matrix := remaining_words.map (fun r => (S.mappings.getD word_id []).getD r 0)
  (pattern_matrix.map (fun p => (pattern_matrix.filter (fun q => decide (q = p))).length)).foldr
    max 0

/-- Model of `GuessEvaluation` from `solver/mod.rs`. -/
structure GuessEvaluation where
  word : Word
  expected_bits : ℝ
  real_bits : Option ℝ
  groups : ℕ
  max_group_size : ℕ
  n_remaining_before : ℕ
  n_remaining_after : Option ℕ
  is_possible : Bool
  prior : ℚ

/-- Model of `Solver::evalute_guess` (sic): `none` models the
`expect("Not a valid guess")` panic on a word outside the vocabulary. -/
noncomputable def Solver.evalute_guess (S : Solver) (word : Word) (remaining_words : List ℕ)
    (status : Option (List LetterStatus)) : Option GuessEvaluation :=
  match (List.range S.words.length).find?
      (fun i => decide (S.words.getD i Word.new = word)) with
  | none => none
  | some word_id =>
      let distributions := S.get_mapping_distribution [word_id] remaining_words
      let entropies : List ℝ := distributions.map entropy
      let n_after := status.map
        (fun st => S.get_n_solutions_after_guess word_id remaining_words st)
      let real_bits := n_after.map
        (fun x => Real.logb 2 ((remaining_words.length : ℝ) / (x : ℝ)))
      some
        { word := word
          expected_bits := entropies.getD 0 0
          real_bits := real_bits
          groups := get_group_size 0 distributions
          max_group_size := S.get_max_group_size word_id remaining_words
          n_remaining_before := remaining_words.length
          n_remaining_after := n_after
          is_possible := remaining_words.contains word_id
          prior := S.priors.getD word_id 0 }

/-- The index lookup (`position(..)`) fails exactly when the word is missing
from the vocabulary. -/
theorem find_index_none (S : Solver) (w : Word) (hw : w ∉ S.words) :
    (List.range S.words.length).find?
      (fun i => decide (S.words.getD i Word.new = w)) = none := by
  rw [List.find?_eq_none]
  intro i hi
  simp only [List.mem_range] at hi
  simp only [decide_eq_true_eq]
  intro h
  apply hw
  rw [← h, List.getD_eq_getElem?_getD, List.getElem?_eq_getElem hi, Option.getD_some]
  exact List.getElem_mem hi

/-- A guess whose word is outside the vocabulary has no match set. -/
theorem matchSet_unknown (S : Solver) (g : Guess) (hw : g.word ∉ S.words) :
    S.matchSet g = none := by
  unfold Solver.matchSet
  rw [find_index_none S g.word hw]

/-- One unresolvable guess anywhere in the history poisons the collection. -/
theorem collectMatchSets_mem_none (S : Solver) (guesses : List Guess) (g : Guess)
    (hmem : g ∈ guesses) (hn : S.matchSet g = none) :
    S.collectMatchSets guesses = none := by
  induction guesses with
  | nil => cases hmem
  | cons a t ih =>
      rw [Solver.collectMatchSets]
      rcases List.mem_cons.mp hmem with h | h
      · subst h
        rw [hn]
      · rw [ih h]
        cases S.matchSet a <;> rfl

/-- C8: a guess history containing a word outside the vocabulary makes the
candidate-set resolver fail, and evaluating a guess word outside the
vocabulary makes the evaluator fail — neither returns a normal result (the
`none` models the source's "Not a valid guess" failure, the spec's
`UnknownWord` condition). -/
theorem unknown_word_fails (S : Solver) (guesses : List Guess) (g : Guess)
    (w : Word) (remaining_words : List ℕ) (status : Option (List LetterStatus))
    (hg : g ∈ guesses) (hgw : g.word ∉ S.words) (hw : w ∉ S.words) :
    S.get_remaining_words_idx guesses = none ∧
    S.evalute_guess w remaining_words status = none := by
  constructor
  · have hc := collectMatchSets_mem_none S guesses g hg (matchSet_unknown S g hgw)
    cases guesses with
    | nil => cases hg
    | cons a t => simp [Solver.get_remaining_words_idx, hc]
  · unfold Solver.evalute_guess
    rw [find_index_none S w hw]

/-- A five-letter word that is not part of the three-word vocabulary. -/
def w_other : Word := create_word_from_string "abcde"

/-- Witness for C8: the unknown word "abcde" against the three-word solver. -/
theorem unknown_word_fails_witness :
    ((⟨w_other, 0⟩ : Guess) ∈ [(⟨w_other, 0⟩ : Guess)] ∧
      (⟨w_other, 0⟩ : Guess).word ∉ S3.words ∧ w_other ∉ S3.words) ∧
    (S3.get_remaining_words_idx [⟨w_other, 0⟩] = none ∧
      S3.evalute_guess w_other [0, 1, 2] none = none) :=
  ⟨⟨by decide, by decide, by decide⟩,
    unknown_word_fails S3 [⟨w_other, 0⟩] ⟨w_other, 0⟩ w_other [0, 1, 2] none
      (by decide) (by decide) (by decide)⟩

/-- C9 (amended): `Solver::guess` has no error path — on an empty candidate
set it still returns a ranked list of `min n V` words (every histogram row is
all-zero, so every composite score is equal and the sort is a no-op). -/
theorem guess_empty_candidates (S : Solver) (n : ℕ) (penalty : ℚ) :
    (S.guess n ([] : List ℕ) penalty).length = min n S.words.length := by
  unfold Solver.guess
  simp

/-- C9 (counterexample to the claim as stated): on the three-word solver,
`guess(1, [], 0)` returns a (length-1) list of recommended words — it does not
report an `EmptyCandidateSet` error; no such error condition exists in the
code. -/
theorem guess_empty_counterexample : (S3.guess 1 ([] : List ℕ) 0).length = 1 := by
  unfold Solver.guess
  simp [S3]

/-- In a `Pairwise`-sorted list, every kept element dominates every dropped one. -/
theorem pairwise_take_drop {α : Type} (R : α → α → Prop) (l : List α) (n : ℕ)
    (h : l.Pairwise R) : ∀ a ∈ l.take n, ∀ b ∈ l.drop n, R a b := by
  have h2 : (l.take n ++ l.drop n).Pairwise R := by
    rw [List.take_append_drop]
    exact h
  exact (List.pairwise_append.mp h2).2.2

/-- C6 (amended): whenever the candidate set does not consist of exactly one
member, `Solver::guess` returns the first `n` entries of a permutation of the
vocabulary sorted by non-increasing composite score, where the score of word
`i` is its entropy plus `prior/20 * penalty` exactly when `i` is in the
candidate set; every returned word's score dominates every non-returned one's.
(When the candidate set is a singleton the source returns that candidate
directly, ignoring `n` — see the counterexample.) -/
theorem guess_ranked (S : Solver) (n : ℕ) (remaining_words : List ℕ) (penalty : ℚ)
    (h : remaining_words.length ≠ 1) :
    ∃ idx : List ℕ,
      idx.Perm (List.range S.words.length) ∧
      idx.Pairwise (fun a b =>
        S.rankOf remaining_words penalty b ≤ S.rankOf remaining_words penalty a) ∧
      (∀ i : ℕ, S.rankOf remaining_words penalty i =
        (if remaining_words.contains i then
          ((S.get_mapping_distribution (List.range S.words.length) remaining_words).map
            entropy).getD i 0 + (S.priors.getD i 0 : ℝ) / 20 * (penalty : ℝ)
        else
          ((S.get_mapping_distribution (List.range S.words.length) remaining_words).map
            entropy).getD i 0)) ∧
      S.guess n remaining_words penalty
        = (idx.take n).map (fun i => S.words.getD i Word.new) ∧
      (∀ a ∈ idx.take n, ∀ b ∈ idx.drop n,
        S.rankOf remaining_words penalty b ≤ S.rankOf remaining_words penalty a) := by
  have hp : ((List.range S.words.length).mergeSort
      (fun a b =>
        @decide (S.rankOf remaining_words penalty b ≤ S.rankOf remaining_words penalty a)
          (Classical.propDecidable _))).Pairwise
      (fun a b =>
        S.rankOf remaining_words penalty b ≤ S.rankOf remaining_words penalty a) := by
    refine List.Pairwise.imp (fun hab => by simpa using hab)
      (List.sorted_mergeSort ?_ ?_ (List.range S.words.length))
    · intro a b c hab hbc
      simp only [decide_eq_true_eq] at hab hbc ⊢
      exact le_trans hbc hab
    · intro a b
      simp only [Bool.or_eq_true, decide_eq_true_eq]
      exact le_total _ _
  refine ⟨(List.range S.words.length).mergeSort
      (fun a b =>
        @decide (S.rankOf remaining_words penalty b ≤ S.rankOf remaining_words penalty a)
          (Classical.propDecidable _)),
    List.mergeSort_perm _ _, hp, ?_, ?_, ?_⟩
  · intro i
    by_cases hc : remaining_words.contains i
    · simp [Solver.rankOf, rank_guess, hc]
    · simp [Solver.rankOf, rank_guess, hc]
  · unfold Solver.guess
    rw [if_neg h]
  · exact pairwise_take_drop _ _ n hp

/-- Witness for C6 at the three-word solver with a two-element candidate set. -/
theorem guess_ranked_witness :
    (([0, 1] : List ℕ).length ≠ 1) ∧
    (∃ idx : List ℕ,
      idx.Perm (List.range S3.words.length) ∧
      idx.Pairwise (fun a b => S3.rankOf [0, 1] 0 b ≤ S3.rankOf [0, 1] 0 a) ∧
      (∀ i : ℕ, S3.rankOf [0, 1] 0 i =
        (if ([0, 1] : List ℕ).contains i then
          ((S3.get_mapping_distribution (List.range S3.words.length) [0, 1]).map
            entropy).getD i 0 + (S3.priors.getD i 0 : ℝ) / 20 * ((0 : ℚ) : ℝ)
        else
          ((S3.get_mapping_distribution (List.range S3.words.length) [0, 1]).map
            entropy).getD i 0)) ∧
      S3.guess 1 [0, 1] 0 = (idx.take 1).map (fun i => S3.words.getD i Word.new) ∧
      (∀ a ∈ idx.take 1, ∀ b ∈ idx.drop 1,
        S3.rankOf [0, 1] 0 b ≤ S3.rankOf [0, 1] 0 a)) :=
  ⟨by decide, guess_ranked S3 1 [0, 1] 0 (by decide)⟩

/-- C6 (counterexample to the claim as stated): with the singleton candidate
set `[0]`, `guess(2, ..)` returns only the one candidate word instead of the
two highest-scored words. -/
theorem guess_singleton_counterexample :
    S3.guess 2 [0] 5 = [w_slate] ∧ (S3.guess 2 [0] 5).length ≠ 2 := by
  constructor
  · unfold Solver.guess
    simp [S3]
  · unfold Solver.guess
    simp [S3]

/-- Dropping the zero entries of a mass vector does not change its total. -/
theorem sum_filter_ne (x : List ℚ) :
    (x.filter (fun v => decide (v ≠ 0))).sum = x.sum := by
  induction x with
  | nil => rfl
  | cons a t ih =>
      by_cases h : a = 0
      · rw [List.filter_cons_of_neg (by simp [h]), ih, List.sum_cons, h, zero_add]
      · rw [List.filter_cons_of_pos (by simp [h]), List.sum_cons, ih, List.sum_cons]

/-- C7: over non-negative bucket masses, `entropy` is non-negative, and it is
zero exactly when at most one bucket is nonzero. -/
theorem entropy_nonneg_zero_iff (x : List ℚ) (hnn : ∀ v ∈ x, 0 ≤ v) :
    0 ≤ entropy x ∧
    (entropy x = 0 ↔ (x.filter (fun v => decide (v ≠ 0))).length ≤ 1) := by
  have hb : (1 : ℝ) < 2 := one_lt_two
  have hterm_nonneg : ∀ t ∈ x.map (fun v =>
      if v = 0 then (0 : ℝ)
      else -((v / x.sum : ℚ) : ℝ) * Real.logb 2 ((v / x.sum : ℚ) : ℝ)), 0 ≤ t := by
    intro t ht
    obtain ⟨v, hv, rfl⟩ := List.mem_map.mp ht
    by_cases h0 : v = 0
    · simp [h0]
    · have hvpos : 0 < v := lt_of_le_of_ne (hnn v hv) (Ne.symm h0)
      have hvs : v ≤ x.sum := List.single_le_sum hnn v hv
      have hs : 0 < x.sum := lt_of_lt_of_le hvpos hvs
      have hp0 : (0 : ℝ) < ((v / x.sum : ℚ) : ℝ) := by
        exact_mod_cast div_pos hvpos hs
      have hp1 : ((v / x.sum : ℚ) : ℝ) ≤ 1 := by
        exact_mod_cast (div_le_one hs).mpr hvs
      rw [if_neg h0, neg_mul_comm]
      exact mul_nonneg hp0.le (neg_nonneg.mpr (Real.logb_nonpos hb hp0.le hp1))
  have hunfold : entropy x = (x.map (fun v =>
      if v = 0 then (0 : ℝ)
      else -((v / x.sum : ℚ) : ℝ) * Real.logb 2 ((v / x.sum : ℚ) : ℝ))).sum := rfl
  refine ⟨by rw [hunfold]; exact List.sum_nonneg hterm_nonneg, ?_, ?_⟩
  · intro h0
    by_contra hlen
    push_neg at hlen
    obtain ⟨v1, v2, l2, hf⟩ : ∃ v1 v2 l2,
        x.filter (fun v => decide (v ≠ 0)) = v1 :: v2 :: l2 := by
      cases hc : x.filter (fun v => decide (v ≠ 0)) with
      | nil => rw [hc] at hlen; simp at hlen
      | cons a t =>
          cases t with
          | nil => rw [hc] at hlen; simp at hlen
          | cons b r => exact ⟨a, b, r, rfl⟩
    have hall : ∀ v ∈ x, (if v = 0 then (0 : ℝ)
        else -((v / x.sum : ℚ) : ℝ) * Real.logb 2 ((v / x.sum : ℚ) : ℝ)) = 0 := by
      intro v hv
      refine List.all_zero_of_le_zero_le_of_sum_eq_zero hterm_nonneg ?_
        (List.mem_map_of_mem _ hv)
      rw [← hunfold]
      exact h0
    have hvs_eq : ∀ v ∈ x, v ≠ 0 → v = x.sum := by
      intro v hv hne
      have hterm := hall v hv
      rw [if_neg hne] at hterm
      have hvpos : 0 < v := lt_of_le_of_ne (hnn v hv) (Ne.symm hne)
      have hvs : v ≤ x.sum := List.single_le_sum hnn v hv
      have hs : 0 < x.sum := lt_of_lt_of_le hvpos hvs
      by_contra hneq
      have hvlt : v < x.sum := lt_of_le_of_ne hvs hneq
      have hp0 : (0 : ℝ) < ((v / x.sum : ℚ) : ℝ) := by
        exact_mod_cast div_pos hvpos hs
      have hp1 : ((v / x.sum : ℚ) : ℝ) < 1 := by
        exact_mod_cast (div_lt_one hs).mpr hvlt
      have hlog : Real.logb 2 ((v / x.sum : ℚ) : ℝ) < 0 := Real.logb_neg hb hp0 hp1
      have hpos : 0 < -((v / x.sum : ℚ) : ℝ) * Real.logb 2 ((v / x.sum : ℚ) : ℝ) :=
        mul_pos_of_neg_of_neg (neg_lt_zero.mpr hp0) hlog
      rw [hterm] at hpos
      exact lt_irrefl 0 hpos
    have h1 : v1 ∈ x ∧ v1 ≠ 0 := by
      have hm : v1 ∈ x.filter (fun v => decide (v ≠ 0)) := by
        rw [hf]
        exact List.mem_cons_self _ _
      have hm2 := List.mem_filter.mp hm
      exact ⟨hm2.1, by simpa using hm2.2⟩
    have h2 : v2 ∈ x ∧ v2 ≠ 0 := by
      have hm : v2 ∈ x.filter (fun v => decide (v ≠ 0)) := by
        rw [hf]
        exact List.mem_cons_of_mem _ (List.mem_cons_self _ _)
      have hm2 := List.mem_filter.mp hm
      exact ⟨hm2.1, by simpa using hm2.2⟩
    have hv1 : v1 = x.sum := hvs_eq v1 h1.1 h1.2
    have hv2 : v2 = x.sum := hvs_eq v2 h2.1 h2.2
    have hl2 : 0 ≤ l2.sum := by
      refine List.sum_nonneg ?_
      intro y hy
      have hm : y ∈ x.filter (fun v => decide (v ≠ 0)) := by
        rw [hf]
        exact List.mem_cons_of_mem _ (List.mem_cons_of_mem _ hy)
      exact hnn y (List.mem_filter.mp hm).1
    have hsum : x.sum = v1 + (v2 + l2.sum) := by
      rw [← sum_filter_ne x, hf]
      simp
    have hspos : 0 < x.sum :=
      hv1 ▸ lt_of_le_of_ne (hnn v1 h1.1) (Ne.symm h1.2)
    rw [hv1, hv2] at hsum
    linarith
  · intro hlen
    rw [hunfold]
    refine List.sum_eq_zero ?_
    intro t ht
    obtain ⟨v, hv, rfl⟩ := List.mem_map.mp ht
    by_cases h0 : v = 0
    · simp [h0]
    · have hvf : v ∈ x.filter (fun w => decide (w ≠ 0)) :=
        List.mem_filter.mpr ⟨hv, by simpa using h0⟩
      have hlength : (x.filter (fun w => decide (w ≠ 0))).length = 1 := by
        have hpos := List.length_pos.mpr (List.ne_nil_of_mem hvf)
        omega
      obtain ⟨a, ha⟩ := List.length_eq_one.mp hlength
      have hva : v = a := by
        rw [ha] at hvf
        simpa using hvf
      have hsum : x.sum = v := by
        rw [← sum_filter_ne x, ha, hva]
        simp
      rw [if_neg h0, hsum, div_self h0]
      simp

/-- Witness for C7 at the concrete mass vector of the repository's entropy
test (`[1, 2, 3]`). -/
theorem entropy_nonneg_zero_iff_witness :
    (∀ v ∈ ([1, 2, 3] : List ℚ), 0 ≤ v) ∧
    (0 ≤ entropy [1, 2, 3] ∧
      (entropy [1, 2, 3] = 0 ↔
        (([1, 2, 3] : List ℚ).filter (fun v => decide (v ≠ 0))).length ≤ 1)) :=
  ⟨by decide, entropy_nonneg_zero_iff [1, 2, 3] (by decide)⟩
